import Mathlib

/-!
Verification of the RFM (Recency/Frequency/Monetary) scoring core of the
Segmena-Insights repository.  The `calculateRFM` and
`getSegmentName` functions are embedded shallowly below:

* JS `Map<string, _>` (insertion-ordered, keyed by `customer_id`) becomes an
  association list with `mapGet` / `mapSet` mirroring `Map.get` / `Map.set`
  (update-in-place for an existing key, append for a new key).
* `Date` values become `Int` millisecond timestamps (the value of
  `Date.getTime()`); `Math.floor((now - last) / 86400000)` becomes `Int.fdiv`.
* JS numbers used for money are embedded as exact rationals `ℚ` (an
  idealization: the source accumulates IEEE-754 doubles, whose addition is
  not associative, so exact-sum facts here idealize the float accumulation).
* `Array.prototype.indexOf` becomes `jsIndexOf` (first index, `-1` if absent);
  `array.sort((a, b) => a - b)` becomes an ascending sort.
* `toISOString().split('T')[0]` (calendar-day rendering of the last
  transaction date) is embedded as the epoch day number `Int.fdiv date msPerDay`.
-/

set_option maxRecDepth 2000

structure Transaction where
  customer_id : String
  customer_name : Option String
  transaction_date : Int
  transaction_amount : ℚ
deriving DecidableEq

structure CustAgg where
  transactions : Nat
  totalSpend : ℚ
  lastDate : Int
deriving DecidableEq

/-- JS `Map.get` on the insertion-ordered association list. -/
def mapGet : List (String × CustAgg) → String → Option CustAgg
  | [], _ => none
  | (k, v) :: rest, key => if k = key then some v else mapGet rest key

/-- JS `Map.set`: overwrite in place if the key exists, else append (a JS `Map`
keeps insertion order and appends new keys at the end). -/
def mapSet : List (String × CustAgg) → String → CustAgg → List (String × CustAgg)
  | [], key, val => [(key, val)]
  | (k, v) :: rest, key, val =>
      if k = key then (k, val) :: rest else (k, v) :: mapSet rest key val

/-- One step of the `transactions.forEach` aggregation loop in `calculateRFM`:
increment the count, add the amount, and keep the later date (strictly-greater
comparison, as in the source). -/
def updateAgg (m : List (String × CustAgg)) (t : Transaction) : List (String × CustAgg) :=
  match mapGet m t.customer_id with
  | some existing =>
      mapSet m t.customer_id
        { transactions := existing.transactions + 1,
          totalSpend := existing.totalSpend + t.transaction_amount,
          lastDate :=
            if t.transaction_date > existing.lastDate then t.transaction_date
            else existing.lastDate }
  | none =>
      mapSet m t.customer_id
        { transactions := 1,
          totalSpend := t.transaction_amount,
          lastDate := t.transaction_date }

/-- The `customerData` map after the full `forEach` pass. -/
def aggregateCustomers (transactions : List Transaction) : List (String × CustAgg) :=
  transactions.foldl updateAgg []

def msPerDay : Int := 1000 * 60 * 60 * 24

structure Customer where
  customer_id : String
  recency : Int
  frequency : Nat
  monetary : ℚ
  lastDate : Int
deriving DecidableEq

/-- The intermediate `customers` array:
`recency = Math.floor((now - lastDate) / 86400000)` in whole days. -/
def customersOf (transactions : List Transaction) (now : Int) : List Customer :=
  (aggregateCustomers transactions).map (fun p =>
    { customer_id := p.1,
      recency := Int.fdiv (now - p.2.lastDate) msPerDay,
      frequency := p.2.transactions,
      monetary := p.2.totalSpend,
      lastDate := p.2.lastDate })

/-- The `array.sort((a, b) => a - b)` calls: ascending numeric sort. -/
def sortAsc {α : Type} [LinearOrder α] (l : List α) : List α :=
  l.insertionSort (· ≤ ·)

/-- JS `Array.prototype.indexOf`: first index of `value`, `-1` when absent. -/
def jsIndexOf {α : Type} [DecidableEq α] (values : List α) (value : α) : Int :=
  if value ∈ values then (values.indexOf value : Int) else -1

/-- The inner `getQuantile` helper: percentile of the first matching index,
mapped onto the quartile buckets 1–4. -/
def getQuantile {α : Type} [DecidableEq α] (values : List α) (value : α) : Int :=
  let index : Int := jsIndexOf values value
  let percentile : ℚ := (index : ℚ) / (values.length : ℚ)
  if percentile ≤ 1/4 then 1
  else if percentile ≤ 1/2 then 2
  else if percentile ≤ 3/4 then 3
  else 4

/-- The `getSegmentName` function: the ordered first-match rule chain. -/
def getSegmentName (r f m : Int) : String :=
  let score := r + f + m
  if r ≥ 4 ∧ f ≥ 4 ∧ m ≥ 4 then "Champions"
  else if r ≥ 3 ∧ f ≥ 3 ∧ m ≥ 3 then "Loyal Customers"
  else if r ≥ 4 ∧ f ≤ 2 then "New Customers"
  else if r ≥ 3 ∧ f ≥ 1 ∧ m ≥ 2 then "Potential Loyalists"
  else if r ≥ 2 ∧ r ≤ 3 ∧ f ≥ 2 ∧ m ≥ 2 then "Customers Needing Attention"
  else if r ≤ 2 ∧ f ≥ 3 then "At Risk"
  else if r ≤ 2 ∧ f ≤ 2 ∧ m ≥ 3 then "Big Spenders at Risk"
  else if r ≤ 1 ∧ f ≤ 2 then "Lost Customers"
  else if score ≥ 9 then "High Value"
  else if score ≥ 6 then "Medium Value"
  else "Low Value"

structure RFMScore where
  customer_id : String
  recency_score : Int
  frequency_score : Int
  monetary_score : Int
  total_transactions : Nat
  total_spend : ℚ
  avg_spend : ℚ
  last_transaction_date : Int
  segment_name : String
deriving DecidableEq

/-- The body of the final `customers.map`: build one `RFMScore` from a
customer and the three sorted cohort value arrays. -/
def scoreCustomer (recencyValues : List Int) (frequencyValues : List Nat)
    (monetaryValues : List ℚ) (customer : Customer) : RFMScore :=
  let r := 5 - getQuantile recencyValues customer.recency
  let f := getQuantile frequencyValues customer.frequency
  let m := getQuantile monetaryValues customer.monetary
  { customer_id := customer.customer_id,
    recency_score := r,
    frequency_score := f,
    monetary_score := m,
    total_transactions := customer.frequency,
    total_spend := customer.monetary,
    avg_spend := customer.monetary / (customer.frequency : ℚ),
    last_transaction_date := Int.fdiv customer.lastDate msPerDay,
    segment_name := getSegmentName r f m }

/-- The score assigned to one customer of the cohort `customersOf ts now`,
using the three sorted value arrays of the cohort. -/
def rfmScoreOf (ts : List Transaction) (now : Int) : Customer → RFMScore :=
  scoreCustomer
    (sortAsc ((customersOf ts now).map (fun c => c.recency)))
    (sortAsc ((customersOf ts now).map (fun c => c.frequency)))
    (sortAsc ((customersOf ts now).map (fun c => c.monetary)))

/-- The `calculateRFM` function: aggregate, derive the cohort, sort the three metric
arrays, and score every customer. -/
def calculateRFM (transactions : List Transaction) (now : Int) : List RFMScore :=
  (customersOf transactions now).map (rfmScoreOf transactions now)

/-- The quartile bucket determined by a first-match index `i` in a cohort of
size `n`; `getQuantile` computes exactly this when the value is present. -/
def bucketOfIdx (i n : Nat) : Int :=
  if 4 * i ≤ n then 1
  else if 4 * i ≤ 2 * n then 2
  else if 4 * i ≤ 3 * n then 3
  else 4

/-- Merging one transaction into an optional running aggregate: exactly what
one `forEach` step does to the map entry of the customer of that transaction. -/
def aggMerge (a : Option CustAgg) (t : Transaction) : CustAgg :=
  match a with
  | none =>
      { transactions := 1,
        totalSpend := t.transaction_amount,
        lastDate := t.transaction_date }
  | some existing =>
      { transactions := existing.transactions + 1,
        totalSpend := existing.totalSpend + t.transaction_amount,
        lastDate :=
          if t.transaction_date > existing.lastDate then t.transaction_date
          else existing.lastDate }

/-- The running aggregate of one customer, read off the full map. -/
def aggOf (ts : List Transaction) (c : String) : Option CustAgg :=
  mapGet (aggregateCustomers ts) c

/-- Size of quartile group `q` for a cohort whose metric values are `vs`:
the number of values whose `getQuantile` lookup in the sorted array gives `q`
(with one value per customer this is the number of customers in group `q`). -/
def quartileCount {α : Type} [DecidableEq α] [LinearOrder α] (vs : List α) (q : Int) : Nat :=
  vs.countP (fun v => decide (getQuantile (sortAsc vs) v = q))

/-- C1 (counterexample): on the empty transaction list `calculateRFM` returns
the empty list — a normal output, not an error result. -/
theorem calculateRFM_nil_counterexample : calculateRFM [] 0 = [] := rfl

/-- C1 (amended): `calculateRFM` applied to the empty transaction list returns
the empty list for every reference time, with no division or out-of-range
failure; the invalid-input rejection of an empty transaction set happens in
the surrounding HTTP handler, not inside `calculateRFM`. -/
theorem calculateRFM_nil_eq_nil : ∀ now : Int, calculateRFM [] now = [] :=
  fun _ => rfl

/-- C2 (counterexample): `getSegmentName 1 1 1` does not fall through to the
sum-based bucket; the eighth rule (`R≤1 ∧ F≤2`) matches first, giving
"Lost Customers", not "Low Value". -/
theorem getSegmentName_one_counterexample :
    getSegmentName 1 1 1 = "Lost Customers" ∧ getSegmentName 1 1 1 ≠ "Low Value" := by
  constructor
  · rfl
  · intro h
    simp [getSegmentName] at h

/-- C2 (amended): the rule chain is evaluated in order with first match
winning; `getSegmentName 4 4 4 = "Champions"` by the first rule, and
`getSegmentName 1 1 1 = "Lost Customers"` because the `R≤1 ∧ F≤2` rule
matches before the sum-based buckets are reached (so it never yields
"Low Value"). -/
theorem getSegmentName_first_match :
    getSegmentName 4 4 4 = "Champions" ∧ getSegmentName 1 1 1 = "Lost Customers" :=
  ⟨rfl, rfl⟩

@[simp] lemma scoreCustomer_customer_id (rv : List Int) (fv : List Nat) (mv : List ℚ)
    (c : Customer) : (scoreCustomer rv fv mv c).customer_id = c.customer_id := rfl

@[simp] lemma scoreCustomer_recency_score (rv : List Int) (fv : List Nat) (mv : List ℚ)
    (c : Customer) :
    (scoreCustomer rv fv mv c).recency_score = 5 - getQuantile rv c.recency := rfl

@[simp] lemma scoreCustomer_frequency_score (rv : List Int) (fv : List Nat) (mv : List ℚ)
    (c : Customer) :
    (scoreCustomer rv fv mv c).frequency_score = getQuantile fv c.frequency := rfl

@[simp] lemma scoreCustomer_monetary_score (rv : List Int) (fv : List Nat) (mv : List ℚ)
    (c : Customer) :
    (scoreCustomer rv fv mv c).monetary_score = getQuantile mv c.monetary := rfl

@[simp] lemma scoreCustomer_total_transactions (rv : List Int) (fv : List Nat) (mv : List ℚ)
    (c : Customer) : (scoreCustomer rv fv mv c).total_transactions = c.frequency := rfl

@[simp] lemma scoreCustomer_total_spend (rv : List Int) (fv : List Nat) (mv : List ℚ)
    (c : Customer) : (scoreCustomer rv fv mv c).total_spend = c.monetary := rfl

@[simp] lemma scoreCustomer_avg_spend (rv : List Int) (fv : List Nat) (mv : List ℚ)
    (c : Customer) :
    (scoreCustomer rv fv mv c).avg_spend = c.monetary / (c.frequency : ℚ) := rfl

lemma getQuantile_range {α : Type} [DecidableEq α] (values : List α) (value : α) :
    1 ≤ getQuantile values value ∧ getQuantile values value ≤ 4 := by
  simp only [getQuantile]
  split_ifs <;> norm_num

lemma cast_div_le_div4_iff (i n a : Nat) (hn : 0 < n) :
    ((i : ℚ) / (n : ℚ) ≤ (a : ℚ) / 4) ↔ 4 * i ≤ a * n := by
  have hn' : (0 : ℚ) < (n : ℚ) := by exact_mod_cast hn
  rw [div_le_div_iff₀ hn' (by norm_num : (0 : ℚ) < 4)]
  constructor
  · intro hh
    have h2 : ((4 * i : Nat) : ℚ) ≤ ((a * n : Nat) : ℚ) := by push_cast; linarith
    exact_mod_cast h2
  · intro hh
    have h2 : ((4 * i : Nat) : ℚ) ≤ ((a * n : Nat) : ℚ) := Nat.cast_le.2 hh
    push_cast at h2; linarith

lemma getQuantile_eq_bucketOfIdx {α : Type} [DecidableEq α] {values : List α} {value : α}
    (h : value ∈ values) :
    getQuantile values value = bucketOfIdx (values.indexOf value) values.length := by
  have hn : 0 < values.length := List.length_pos.2 (List.ne_nil_of_mem h)
  have hidx : jsIndexOf values value = (values.indexOf value : Int) := by
    unfold jsIndexOf; rw [if_pos h]
  have hcast : ((jsIndexOf values value : Int) : ℚ) = ((values.indexOf value : Nat) : ℚ) := by
    rw [hidx]; push_cast; rfl
  have e1 : (((jsIndexOf values value : Int) : ℚ) / (values.length : ℚ) ≤ 1 / 4) ↔
      4 * values.indexOf value ≤ values.length := by
    rw [hcast, show (1 / 4 : ℚ) = ((1 : Nat) : ℚ) / 4 by norm_num,
      cast_div_le_div4_iff _ _ _ hn, one_mul]
  have e2 : (((jsIndexOf values value : Int) : ℚ) / (values.length : ℚ) ≤ 1 / 2) ↔
      4 * values.indexOf value ≤ 2 * values.length := by
    rw [hcast, show (1 / 2 : ℚ) = ((2 : Nat) : ℚ) / 4 by norm_num,
      cast_div_le_div4_iff _ _ _ hn]
  have e3 : (((jsIndexOf values value : Int) : ℚ) / (values.length : ℚ) ≤ 3 / 4) ↔
      4 * values.indexOf value ≤ 3 * values.length := by
    rw [hcast, show (3 / 4 : ℚ) = ((3 : Nat) : ℚ) / 4 by norm_num,
      cast_div_le_div4_iff _ _ _ hn]
  simp only [getQuantile, bucketOfIdx, e1, e2, e3]

lemma bucketOfIdx_mono {i j n : Nat} (hij : i ≤ j) :
    bucketOfIdx i n ≤ bucketOfIdx j n := by
  unfold bucketOfIdx
  split_ifs <;> omega

lemma indexOf_mono_of_sorted {α : Type} [LinearOrder α] {l : List α}
    (hs : l.Sorted (· ≤ ·)) {a b : α} (ha : a ∈ l) (hb : b ∈ l) (hab : a ≤ b) :
    l.indexOf a ≤ l.indexOf b := by
  by_contra hlt
  have h1 : l.indexOf b < l.indexOf a := Nat.lt_of_not_le hlt
  have hia : l.indexOf a < l.length := List.indexOf_lt_length.2 ha
  have hib : l.indexOf b < l.length := List.indexOf_lt_length.2 hb
  have hba : l.get ⟨l.indexOf b, hib⟩ ≤ l.get ⟨l.indexOf a, hia⟩ :=
    hs.rel_get_of_lt (by exact h1)
  rw [List.indexOf_get, List.indexOf_get] at hba
  have heq : a = b := le_antisymm hab hba
  rw [heq] at h1
  exact absurd h1 (lt_irrefl _)

lemma getQuantile_mono {α : Type} [LinearOrder α] {l : List α}
    (hs : l.Sorted (· ≤ ·)) {a b : α} (ha : a ∈ l) (hb : b ∈ l) (hab : a ≤ b) :
    getQuantile l a ≤ getQuantile l b := by
  rw [getQuantile_eq_bucketOfIdx ha, getQuantile_eq_bucketOfIdx hb]
  exact bucketOfIdx_mono (indexOf_mono_of_sorted hs ha hb hab)

/-- C8: every score record produced by `calculateRFM` on a non-empty input has
recency, frequency and monetary scores in {1, 2, 3, 4}. -/
theorem scores_in_one_to_four (ts : List Transaction) (now : Int) (hne : ts ≠ [])
    (s : RFMScore) (hs : s ∈ calculateRFM ts now) :
    s.recency_score ∈ ([1, 2, 3, 4] : List Int) ∧
    s.frequency_score ∈ ([1, 2, 3, 4] : List Int) ∧
    s.monetary_score ∈ ([1, 2, 3, 4] : List Int) := by
  obtain ⟨c, hc, rfl⟩ := List.mem_map.1 hs
  have h1 := getQuantile_range (sortAsc ((customersOf ts now).map (fun c => c.recency))) c.recency
  have h2 := getQuantile_range
    (sortAsc ((customersOf ts now).map (fun c => c.frequency))) c.frequency
  have h3 := getQuantile_range
    (sortAsc ((customersOf ts now).map (fun c => c.monetary))) c.monetary
  refine ⟨?_, ?_, ?_⟩ <;>
    simp only [rfmScoreOf, scoreCustomer_recency_score, scoreCustomer_frequency_score,
      scoreCustomer_monetary_score, List.mem_cons, List.not_mem_nil, or_false] <;>
    omega

/-- C8 witness: the bound holds on a concrete two-customer input. -/
theorem scores_in_one_to_four_witness :
    ([⟨"A", none, 0, 10⟩, ⟨"B", none, 432000000, 20⟩] : List Transaction) ≠ [] ∧
    ((calculateRFM [⟨"A", none, 0, 10⟩, ⟨"B", none, 432000000, 20⟩] 864000000).map
      (fun s => s.recency_score) = [3, 4] ∧
    ∀ s ∈ calculateRFM [⟨"A", none, 0, 10⟩, ⟨"B", none, 432000000, 20⟩] 864000000,
      s.recency_score ∈ ([1, 2, 3, 4] : List Int) ∧
      s.frequency_score ∈ ([1, 2, 3, 4] : List Int) ∧
      s.monetary_score ∈ ([1, 2, 3, 4] : List Int)) := by
  refine ⟨by decide, by with_unfolding_all decide, ?_⟩
  intro s hs
  exact scores_in_one_to_four _ 864000000 (by decide) s hs

/-- C6: within one cohort, the recency score `5 − quartile(recency)` is
non-increasing in the recency value: a customer whose days-since-last-purchase
is smaller or equal gets a greater or equal recency score. -/
theorem recency_score_antitone (ts : List Transaction) (now : Int) (c1 c2 : Customer)
    (h1 : c1 ∈ customersOf ts now) (h2 : c2 ∈ customersOf ts now)
    (hle : c1.recency ≤ c2.recency) :
    (rfmScoreOf ts now c2).recency_score ≤ (rfmScoreOf ts now c1).recency_score := by
  have hm1 : c1.recency ∈ sortAsc ((customersOf ts now).map (fun c => c.recency)) := by
    unfold sortAsc
    rw [(List.perm_insertionSort _ _).mem_iff]
    exact List.mem_map.2 ⟨c1, h1, rfl⟩
  have hm2 : c2.recency ∈ sortAsc ((customersOf ts now).map (fun c => c.recency)) := by
    unfold sortAsc
    rw [(List.perm_insertionSort _ _).mem_iff]
    exact List.mem_map.2 ⟨c2, h2, rfl⟩
  have hsorted : (sortAsc ((customersOf ts now).map (fun c => c.recency))).Sorted (· ≤ ·) :=
    List.sorted_insertionSort _ _
  have hq := getQuantile_mono hsorted hm1 hm2 hle
  simp only [rfmScoreOf, scoreCustomer_recency_score]
  omega

/-- C6 witness: on a concrete two-customer cohort the more recent customer
("B", 5 days) scores at least as high as the older one ("A", 10 days). -/
theorem recency_score_antitone_witness :
    (⟨"B", 5, 1, 20, 432000000⟩ : Customer) ∈
      customersOf [⟨"A", none, 0, 10⟩, ⟨"B", none, 432000000, 20⟩] 864000000 ∧
    (⟨"A", 10, 1, 10, 0⟩ : Customer) ∈
      customersOf [⟨"A", none, 0, 10⟩, ⟨"B", none, 432000000, 20⟩] 864000000 ∧
    (rfmScoreOf [⟨"A", none, 0, 10⟩, ⟨"B", none, 432000000, 20⟩] 864000000
        (⟨"A", 10, 1, 10, 0⟩ : Customer)).recency_score ≤
      (rfmScoreOf [⟨"A", none, 0, 10⟩, ⟨"B", none, 432000000, 20⟩] 864000000
        (⟨"B", 5, 1, 20, 432000000⟩ : Customer)).recency_score :=
  ⟨by decide, by decide,
    recency_score_antitone _ 864000000 _ _ (by decide) (by decide) (by decide)⟩

/-- C4: quantile lookup is by value, so two customers of the same cohort with
equal recency values receive equal recency scores, and likewise for frequency
and monetary values and scores. -/
theorem equal_values_equal_scores (ts : List Transaction) (now : Int) (c1 c2 : Customer)
    (h1 : c1 ∈ customersOf ts now) (h2 : c2 ∈ customersOf ts now) :
    (c1.recency = c2.recency →
      (rfmScoreOf ts now c1).recency_score = (rfmScoreOf ts now c2).recency_score) ∧
    (c1.frequency = c2.frequency →
      (rfmScoreOf ts now c1).frequency_score = (rfmScoreOf ts now c2).frequency_score) ∧
    (c1.monetary = c2.monetary →
      (rfmScoreOf ts now c1).monetary_score = (rfmScoreOf ts now c2).monetary_score) := by
  refine ⟨fun h => ?_, fun h => ?_, fun h => ?_⟩ <;>
    simp only [rfmScoreOf, scoreCustomer_recency_score, scoreCustomer_frequency_score,
      scoreCustomer_monetary_score, h]

/-- C4 witness: two distinct customers with identical recency, frequency and
monetary values receive identical scores on all three axes. -/
theorem equal_values_equal_scores_witness :
    (⟨"A", 0, 1, 10, 0⟩ : Customer) ∈ customersOf [⟨"A", none, 0, 10⟩, ⟨"B", none, 0, 10⟩] 0 ∧
    (⟨"B", 0, 1, 10, 0⟩ : Customer) ∈ customersOf [⟨"A", none, 0, 10⟩, ⟨"B", none, 0, 10⟩] 0 ∧
    (rfmScoreOf [⟨"A", none, 0, 10⟩, ⟨"B", none, 0, 10⟩] 0
        (⟨"A", 0, 1, 10, 0⟩ : Customer)).recency_score =
      (rfmScoreOf [⟨"A", none, 0, 10⟩, ⟨"B", none, 0, 10⟩] 0
        (⟨"B", 0, 1, 10, 0⟩ : Customer)).recency_score ∧
    (rfmScoreOf [⟨"A", none, 0, 10⟩, ⟨"B", none, 0, 10⟩] 0
        (⟨"A", 0, 1, 10, 0⟩ : Customer)).frequency_score =
      (rfmScoreOf [⟨"A", none, 0, 10⟩, ⟨"B", none, 0, 10⟩] 0
        (⟨"B", 0, 1, 10, 0⟩ : Customer)).frequency_score ∧
    (rfmScoreOf [⟨"A", none, 0, 10⟩, ⟨"B", none, 0, 10⟩] 0
        (⟨"A", 0, 1, 10, 0⟩ : Customer)).monetary_score =
      (rfmScoreOf [⟨"A", none, 0, 10⟩, ⟨"B", none, 0, 10⟩] 0
        (⟨"B", 0, 1, 10, 0⟩ : Customer)).monetary_score := by
  have hA : (⟨"A", 0, 1, 10, 0⟩ : Customer) ∈
      customersOf [⟨"A", none, 0, 10⟩, ⟨"B", none, 0, 10⟩] 0 := by
    decide
  have hB : (⟨"B", 0, 1, 10, 0⟩ : Customer) ∈
      customersOf [⟨"A", none, 0, 10⟩, ⟨"B", none, 0, 10⟩] 0 := by
    decide
  have h := equal_values_equal_scores [⟨"A", none, 0, 10⟩, ⟨"B", none, 0, 10⟩] 0
    (⟨"A", 0, 1, 10, 0⟩ : Customer) (⟨"B", 0, 1, 10, 0⟩ : Customer) hA hB
  exact ⟨hA, hB, h.1 rfl, h.2.1 rfl, h.2.2 rfl⟩

lemma mapGet_mapSet (m : List (String × CustAgg)) (key : String) (val : CustAgg) (c : String) :
    mapGet (mapSet m key val) c = if key = c then some val else mapGet m c := by
  induction m with
  | nil => simp [mapSet, mapGet]
  | cons p rest ih =>
    obtain ⟨k, v⟩ := p
    by_cases hk : k = key
    · subst hk
      simp only [mapSet, if_pos rfl, mapGet]
      by_cases hc : k = c
      · subst hc; simp
      · simp [hc, mapGet, fun h => hc h]
    · simp only [mapSet, if_neg hk, mapGet]
      by_cases hc : k = c
      · subst hc
        have : ¬ key = k := fun h => hk h.symm
        simp [this]
      · simp [hc, ih]

lemma keys_mapSet (m : List (String × CustAgg)) (key : String) (val : CustAgg) :
    (mapSet m key val).map Prod.fst =
      if key ∈ m.map Prod.fst then m.map Prod.fst else m.map Prod.fst ++ [key] := by
  induction m with
  | nil => simp [mapSet]
  | cons p rest ih =>
    obtain ⟨k, v⟩ := p
    by_cases hk : k = key
    · subst hk; simp [mapSet]
    · have hk' : ¬ key = k := fun h => hk h.symm
      simp only [mapSet, if_neg hk, List.map_cons, List.mem_cons, hk', false_or, ih]
      by_cases hmem : key ∈ rest.map Prod.fst <;> simp [hmem]

lemma mapGet_eq_none_iff (m : List (String × CustAgg)) (c : String) :
    mapGet m c = none ↔ c ∉ m.map Prod.fst := by
  induction m with
  | nil => simp [mapGet]
  | cons p rest ih =>
    obtain ⟨k, v⟩ := p
    simp only [mapGet, List.map_cons, List.mem_cons]
    by_cases hk : k = c
    · subst hk; simp
    · have hk' : ¬ c = k := fun h => hk h.symm
      simp [hk, hk', ih]

lemma keys_updateAgg (m : List (String × CustAgg)) (t : Transaction) :
    (updateAgg m t).map Prod.fst =
      if t.customer_id ∈ m.map Prod.fst then m.map Prod.fst
      else m.map Prod.fst ++ [t.customer_id] := by
  unfold updateAgg
  cases hget : mapGet m t.customer_id with
  | none =>
    have hmem : t.customer_id ∉ m.map Prod.fst := (mapGet_eq_none_iff m _).1 hget
    rw [keys_mapSet]
  | some existing =>
    have hmem : t.customer_id ∈ m.map Prod.fst := by
      by_contra hn
      rw [← mapGet_eq_none_iff] at hn
      rw [hget] at hn
      exact Option.noConfusion hn
    rw [keys_mapSet]

lemma keys_foldl_mem (ts : List Transaction) (m : List (String × CustAgg)) (c : String) :
    c ∈ (ts.foldl updateAgg m).map Prod.fst ↔
      c ∈ m.map Prod.fst ∨ c ∈ ts.map (fun t => t.customer_id) := by
  induction ts generalizing m with
  | nil => simp
  | cons t rest ih =>
    simp only [List.foldl_cons, ih, List.map_cons, List.mem_cons]
    rw [keys_updateAgg]
    by_cases hmem : t.customer_id ∈ m.map Prod.fst
    · rw [if_pos hmem]
      constructor
      · intro h; tauto
      · rintro (h | h | h)
        · tauto
        · subst h; tauto
        · tauto
    · rw [if_neg hmem]
      simp only [List.mem_append, List.mem_singleton]
      tauto

lemma keys_foldl_nodup (ts : List Transaction) (m : List (String × CustAgg))
    (hm : (m.map Prod.fst).Nodup) : ((ts.foldl updateAgg m).map Prod.fst).Nodup := by
  induction ts generalizing m with
  | nil => exact hm
  | cons t rest ih =>
    simp only [List.foldl_cons]
    refine ih _ ?_
    rw [keys_updateAgg]
    by_cases hmem : t.customer_id ∈ m.map Prod.fst
    · rw [if_pos hmem]; exact hm
    · rw [if_neg hmem]
      simp only [List.nodup_append, List.nodup_cons, List.not_mem_nil, not_false_iff,
        List.nodup_nil, and_true, List.disjoint_singleton]
      exact ⟨hm, by simpa using hmem⟩

lemma calculateRFM_map_customer_id (ts : List Transaction) (now : Int) :
    (calculateRFM ts now).map (fun s => s.customer_id) =
      (aggregateCustomers ts).map Prod.fst := by
  unfold calculateRFM customersOf
  rw [List.map_map, List.map_map]
  rfl

/-- C5: on every non-empty transaction list, `calculateRFM` emits exactly one
record per distinct customer id: the output ids are duplicate-free and an id
appears in the output exactly when some input transaction carries it. -/
theorem one_score_per_customer (ts : List Transaction) (now : Int) (hne : ts ≠ []) :
    ((calculateRFM ts now).map (fun s => s.customer_id)).Nodup ∧
    (∀ c : String, c ∈ (calculateRFM ts now).map (fun s => s.customer_id) ↔
      c ∈ ts.map (fun t => t.customer_id)) := by
  rw [calculateRFM_map_customer_id]
  constructor
  · exact keys_foldl_nodup ts [] (by simp)
  · intro c
    rw [show (aggregateCustomers ts) = ts.foldl updateAgg [] from rfl, keys_foldl_mem]
    simp

/-- C5 witness: on a concrete three-transaction input with two distinct
customers, the output ids are exactly the two distinct input ids. -/
theorem one_score_per_customer_witness :
    ([⟨"A", none, 0, 10⟩, ⟨"B", none, 4, 20⟩, ⟨"A", none, 2, 5⟩] : List Transaction) ≠ [] ∧
    ((calculateRFM [⟨"A", none, 0, 10⟩, ⟨"B", none, 4, 20⟩, ⟨"A", none, 2, 5⟩] 9).map
      (fun s => s.customer_id)).Nodup ∧
    ∀ c : String,
      c ∈ (calculateRFM [⟨"A", none, 0, 10⟩, ⟨"B", none, 4, 20⟩, ⟨"A", none, 2, 5⟩] 9).map
        (fun s => s.customer_id) ↔
      c ∈ ([⟨"A", none, 0, 10⟩, ⟨"B", none, 4, 20⟩, ⟨"A", none, 2, 5⟩] : List Transaction).map
        (fun t => t.customer_id) := by
  have h := one_score_per_customer
    [⟨"A", none, 0, 10⟩, ⟨"B", none, 4, 20⟩, ⟨"A", none, 2, 5⟩] 9 (by decide)
  exact ⟨by decide, h.1, h.2⟩

lemma mapGet_updateAgg (m : List (String × CustAgg)) (t : Transaction) (c : String) :
    mapGet (updateAgg m t) c =
      if t.customer_id = c then some (aggMerge (mapGet m c) t) else mapGet m c := by
  unfold updateAgg
  cases hget : mapGet m t.customer_id with
  | none =>
    rw [mapGet_mapSet]
    by_cases hc : t.customer_id = c
    · rw [if_pos hc, if_pos hc, ← hc, hget]
      rfl
    · rw [if_neg hc, if_neg hc]
  | some existing =>
    rw [mapGet_mapSet]
    by_cases hc : t.customer_id = c
    · rw [if_pos hc, if_pos hc, ← hc, hget]
      rfl
    · rw [if_neg hc, if_neg hc]

lemma mapGet_foldl (ts : List Transaction) (m : List (String × CustAgg)) (c : String) :
    mapGet (ts.foldl updateAgg m) c =
      ts.foldl (fun a t => if t.customer_id = c then some (aggMerge a t) else a) (mapGet m c) := by
  induction ts generalizing m with
  | nil => rfl
  | cons t rest ih =>
    simp only [List.foldl_cons]
    rw [ih, mapGet_updateAgg]

lemma foldl_restrict_filter (ts : List Transaction) (c : String) (init : Option CustAgg) :
    ts.foldl (fun a t => if t.customer_id = c then some (aggMerge a t) else a) init =
      (ts.filter (fun t => t.customer_id = c)).foldl (fun a t => some (aggMerge a t)) init := by
  induction ts generalizing init with
  | nil => rfl
  | cons t rest ih =>
    simp only [List.foldl_cons, List.filter_cons]
    by_cases hc : t.customer_id = c
    · rw [if_pos hc, if_pos (by simp [hc] : decide (t.customer_id = c) = true),
        List.foldl_cons]
      exact ih _
    · rw [if_neg hc, if_neg (by simp [hc] : ¬ decide (t.customer_id = c) = true)]
      exact ih _

lemma aggOf_eq_filter_foldl (ts : List Transaction) (c : String) :
    aggOf ts c =
      (ts.filter (fun t => t.customer_id = c)).foldl (fun a t => some (aggMerge a t)) none := by
  unfold aggOf aggregateCustomers
  rw [mapGet_foldl]
  exact foldl_restrict_filter ts c (mapGet [] c)

lemma mapGet_of_mem_nodup (m : List (String × CustAgg)) (hm : (m.map Prod.fst).Nodup)
    {k : String} {v : CustAgg} (hkv : (k, v) ∈ m) : mapGet m k = some v := by
  induction m with
  | nil => cases hkv
  | cons p rest ih =>
    obtain ⟨k', v'⟩ := p
    simp only [List.map_cons, List.nodup_cons] at hm
    rcases List.mem_cons.1 hkv with heq | hmem
    · injection heq with h1 h2
      subst h1; subst h2
      simp [mapGet]
    · have hk : k' ≠ k := by
        intro h
        subst h
        exact hm.1 (List.mem_map.2 ⟨(k', v), hmem, rfl⟩)
      simp only [mapGet, if_neg hk]
      exact ih hm.2 hmem

lemma foldl_aggMerge_some (l : List Transaction) (a0 : CustAgg) :
    l.foldl (fun a t => some (aggMerge a t)) (some a0) =
      some { transactions := a0.transactions + l.length,
             totalSpend := a0.totalSpend + (l.map (fun t => t.transaction_amount)).sum,
             lastDate := l.foldl
               (fun d t => if t.transaction_date > d then t.transaction_date else d)
               a0.lastDate } := by
  induction l generalizing a0 with
  | nil => simp
  | cons t rest ih =>
    simp only [List.foldl_cons, List.map_cons, List.sum_cons, List.length_cons]
    rw [ih]
    simp only [aggMerge, Option.some.injEq, CustAgg.mk.injEq]
    refine ⟨by omega, by ring, by trivial⟩

/-- C9: every output record has at least one transaction, its total spend and
transaction count are exactly the sum and count of the input transactions of
that customer, and `avg_spend` is exactly `total_spend / total_transactions`. -/
theorem avg_spend_exact (ts : List Transaction) (now : Int) (s : RFMScore)
    (hs : s ∈ calculateRFM ts now) :
    1 ≤ s.total_transactions ∧
    s.avg_spend = s.total_spend / (s.total_transactions : ℚ) ∧
    s.total_spend = ((ts.filter (fun t => t.customer_id = s.customer_id)).map
      (fun t => t.transaction_amount)).sum ∧
    s.total_transactions = (ts.filter (fun t => t.customer_id = s.customer_id)).length := by
  obtain ⟨c, hc, rfl⟩ := List.mem_map.1 hs
  obtain ⟨p, hp, rfl⟩ := List.mem_map.1 hc
  have hnodup : ((aggregateCustomers ts).map Prod.fst).Nodup :=
    keys_foldl_nodup ts [] (by simp)
  have hagg : aggOf ts p.1 = some p.2 := mapGet_of_mem_nodup _ hnodup hp
  rw [aggOf_eq_filter_foldl] at hagg
  simp only [rfmScoreOf, scoreCustomer_customer_id, scoreCustomer_total_transactions,
    scoreCustomer_total_spend, scoreCustomer_avg_spend]
  cases hl2 : ts.filter (fun t => t.customer_id = p.1) with
  | nil =>
    rw [hl2] at hagg
    exact absurd hagg (by simp)
  | cons t rest =>
    rw [hl2, List.foldl_cons, foldl_aggMerge_some] at hagg
    have he := Option.some.inj hagg
    have htx : (aggMerge none t).transactions + rest.length = p.2.transactions :=
      congrArg CustAgg.transactions he
    have hsp : (aggMerge none t).totalSpend +
        (rest.map (fun t => t.transaction_amount)).sum = p.2.totalSpend :=
      congrArg CustAgg.totalSpend he
    simp only [aggMerge] at htx hsp
    refine ⟨by omega, by trivial, ?_, ?_⟩
    · rw [List.map_cons, List.sum_cons, ← hsp]
    · rw [List.length_cons, ← htx]
      omega

/-- C9 witness: on a concrete input, the record of customer A has two transactions,
total spend 30, and avg_spend exactly 15 = 30 / 2. -/
theorem avg_spend_exact_witness :
    (⟨"A", 4, 2, 2, 2, 30, 15, 0, "New Customers"⟩ : RFMScore) ∈
      calculateRFM [⟨"A", none, 0, 10⟩, ⟨"A", none, 2, 20⟩, ⟨"B", none, 4, 5⟩] 9 ∧
    (1 ≤ (⟨"A", 4, 2, 2, 2, 30, 15, 0, "New Customers"⟩ : RFMScore).total_transactions ∧
    (⟨"A", 4, 2, 2, 2, 30, 15, 0, "New Customers"⟩ : RFMScore).avg_spend =
      (⟨"A", 4, 2, 2, 2, 30, 15, 0, "New Customers"⟩ : RFMScore).total_spend /
        ((⟨"A", 4, 2, 2, 2, 30, 15, 0, "New Customers"⟩ : RFMScore).total_transactions : ℚ) ∧
    (⟨"A", 4, 2, 2, 2, 30, 15, 0, "New Customers"⟩ : RFMScore).total_spend =
      ((([⟨"A", none, 0, 10⟩, ⟨"A", none, 2, 20⟩, ⟨"B", none, 4, 5⟩] :
          List Transaction).filter (fun t => t.customer_id =
            (⟨"A", 4, 2, 2, 2, 30, 15, 0, "New Customers"⟩ : RFMScore).customer_id)).map
        (fun t => t.transaction_amount)).sum ∧
    (⟨"A", 4, 2, 2, 2, 30, 15, 0, "New Customers"⟩ : RFMScore).total_transactions =
      (([⟨"A", none, 0, 10⟩, ⟨"A", none, 2, 20⟩, ⟨"B", none, 4, 5⟩] :
          List Transaction).filter (fun t => t.customer_id =
            (⟨"A", 4, 2, 2, 2, 30, 15, 0, "New Customers"⟩ : RFMScore).customer_id)).length) := by
  have hs : (⟨"A", 4, 2, 2, 2, 30, 15, 0, "New Customers"⟩ : RFMScore) ∈
      calculateRFM [⟨"A", none, 0, 10⟩, ⟨"A", none, 2, 20⟩, ⟨"B", none, 4, 5⟩] 9 := by
    with_unfolding_all decide
  exact ⟨hs, avg_spend_exact _ 9 _ hs⟩

lemma sortAsc_singleton {α : Type} [LinearOrder α] (x : α) : sortAsc [x] = [x] := rfl

lemma getQuantile_singleton {α : Type} [DecidableEq α] (x : α) : getQuantile [x] x = 1 := by
  simp [getQuantile, jsIndexOf, List.indexOf_cons_self]

lemma foldl_single_key (l : List Transaction) (cid : String) (a : CustAgg)
    (hall : ∀ t ∈ l, t.customer_id = cid) :
    ∃ a2 : CustAgg, l.foldl updateAgg [(cid, a)] = [(cid, a2)] := by
  induction l generalizing a with
  | nil => exact ⟨a, rfl⟩
  | cons t rest ih =>
    have hid : t.customer_id = cid := hall t (List.mem_cons_self t rest)
    have hstep : updateAgg [(cid, a)] t = [(cid, aggMerge (some a) t)] := by
      unfold updateAgg
      rw [hid]
      simp [mapGet, mapSet, aggMerge]
    simp only [List.foldl_cons, hstep]
    exact ih _ (fun t' ht' => hall t' (List.mem_cons_of_mem _ ht'))

lemma rfmScore_of_single_cohort (ts : List Transaction) (now : Int) (c : Customer)
    (hc : customersOf ts now = [c]) :
    (rfmScoreOf ts now c).recency_score = 4 ∧
    (rfmScoreOf ts now c).frequency_score = 1 ∧
    (rfmScoreOf ts now c).monetary_score = 1 := by
  simp only [rfmScoreOf, scoreCustomer_recency_score, scoreCustomer_frequency_score,
    scoreCustomer_monetary_score, hc, List.map_cons, List.map_nil]
  rw [sortAsc_singleton, sortAsc_singleton, sortAsc_singleton,
    getQuantile_singleton, getQuantile_singleton, getQuantile_singleton]
  norm_num

/-- C10: when every transaction belongs to one single customer, the cohort has
exactly one record and its scores are always recency 4, frequency 1,
monetary 1, whatever the dates and amounts. -/
theorem single_customer_scores (ts : List Transaction) (now : Int) (hne : ts ≠ [])
    (hone : ∀ t1 ∈ ts, ∀ t2 ∈ ts, t1.customer_id = t2.customer_id) :
    (calculateRFM ts now).length = 1 ∧
    ∀ s ∈ calculateRFM ts now,
      s.recency_score = 4 ∧ s.frequency_score = 1 ∧ s.monetary_score = 1 := by
  obtain ⟨t0, rest, rfl⟩ := List.exists_cons_of_ne_nil hne
  have hall : ∀ t ∈ rest, t.customer_id = t0.customer_id := fun t ht =>
    hone t (List.mem_cons_of_mem _ ht) t0 (List.mem_cons_self _ _)
  obtain ⟨a2, ha2⟩ := foldl_single_key rest t0.customer_id
    ⟨1, t0.transaction_amount, t0.transaction_date⟩ hall
  have hagg : aggregateCustomers (t0 :: rest) = [(t0.customer_id, a2)] := by
    unfold aggregateCustomers
    rw [List.foldl_cons]
    exact ha2
  have hcust : customersOf (t0 :: rest) now =
      [⟨t0.customer_id, Int.fdiv (now - a2.lastDate) msPerDay, a2.transactions,
        a2.totalSpend, a2.lastDate⟩] := by
    unfold customersOf
    rw [hagg]
    rfl
  have hscores := rfmScore_of_single_cohort (t0 :: rest) now _ hcust
  constructor
  · unfold calculateRFM
    rw [hcust]
    rfl
  · intro s hs
    unfold calculateRFM at hs
    rw [hcust] at hs
    simp only [List.map_cons, List.map_nil, List.mem_singleton] at hs
    rw [hs]
    exact hscores

/-- C10 witness: two transactions of the same customer with different dates
and amounts yield one record scored (4, 1, 1). -/
theorem single_customer_scores_witness :
    ([⟨"A", none, 0, 10⟩, ⟨"A", none, 2, 20⟩] : List Transaction) ≠ [] ∧
    (∀ t1 ∈ ([⟨"A", none, 0, 10⟩, ⟨"A", none, 2, 20⟩] : List Transaction),
      ∀ t2 ∈ ([⟨"A", none, 0, 10⟩, ⟨"A", none, 2, 20⟩] : List Transaction),
        t1.customer_id = t2.customer_id) ∧
    (calculateRFM [⟨"A", none, 0, 10⟩, ⟨"A", none, 2, 20⟩] 9).length = 1 ∧
    ∀ s ∈ calculateRFM [⟨"A", none, 0, 10⟩, ⟨"A", none, 2, 20⟩] 9,
      s.recency_score = 4 ∧ s.frequency_score = 1 ∧ s.monetary_score = 1 := by
  have h := single_customer_scores [⟨"A", none, 0, 10⟩, ⟨"A", none, 2, 20⟩] 9
    (by decide) (by decide)
  exact ⟨by decide, by decide, h.1, h.2⟩

lemma countP_indexOf {α : Type} [DecidableEq α] (l : List α) (hl : l.Nodup) (F : Nat → Bool) :
    l.countP (fun v => F (l.indexOf v)) = (List.range l.length).countP F := by
  induction l generalizing F with
  | nil => simp
  | cons a t ih =>
    simp only [List.nodup_cons] at hl
    have hcount : t.countP (fun v => F ((a :: t).indexOf v)) =
        t.countP (fun v => F (t.indexOf v + 1)) := by
      refine List.countP_congr (fun v hv => ?_)
      have hva : a ≠ v := fun h => hl.1 (h ▸ hv)
      rw [List.indexOf_cons_ne _ hva]
    rw [List.countP_cons, hcount, ih hl.2 (fun i => F (i + 1)), List.indexOf_cons_self,
      List.length_cons, List.range_succ_eq_map, List.countP_cons, List.countP_map]
    rfl

lemma countP_range_interval (n a b : Nat) :
    (List.range n).countP (fun i => decide (a ≤ i ∧ i < b)) = min n b - min n a := by
  induction n with
  | zero => simp
  | succ n ih =>
    rw [List.range_succ, List.countP_append, ih]
    by_cases h : a ≤ n ∧ n < b
    · simp only [List.countP_cons, List.countP_nil]
      rw [if_pos (by simpa using h)]
      omega
    · simp only [List.countP_cons, List.countP_nil]
      rw [if_neg (by simpa using h)]
      omega

lemma quartileCount_eq_range_count {α : Type} [DecidableEq α] [LinearOrder α]
    (vs : List α) (hnd : vs.Nodup) (q : Int) :
    quartileCount vs q =
      (List.range vs.length).countP (fun i => decide (bucketOfIdx i vs.length = q)) := by
  unfold quartileCount
  have hperm : vs.Perm (sortAsc vs) := (List.perm_insertionSort _ vs).symm
  have hnd2 : (sortAsc vs).Nodup := ((List.perm_insertionSort _ vs).nodup_iff).2 hnd
  have hlen : (sortAsc vs).length = vs.length := (List.perm_insertionSort _ vs).length_eq
  rw [List.Perm.countP_eq _ hperm]
  have hcong : (sortAsc vs).countP (fun v => decide (getQuantile (sortAsc vs) v = q)) =
      (sortAsc vs).countP
        (fun v => decide (bucketOfIdx ((sortAsc vs).indexOf v) (sortAsc vs).length = q)) :=
    List.countP_congr (fun v hv => by
      simp only [decide_eq_true_eq, getQuantile_eq_bucketOfIdx hv])
  rw [hcong, countP_indexOf _ hnd2 (fun i => decide (bucketOfIdx i (sortAsc vs).length = q)),
    hlen]

lemma quartileCount_formula {α : Type} [DecidableEq α] [LinearOrder α]
    (vs : List α) (hnd : vs.Nodup) (hne : vs ≠ []) :
    quartileCount vs 1 = vs.length / 4 + 1 ∧
    quartileCount vs 2 = vs.length / 2 - vs.length / 4 ∧
    quartileCount vs 3 = 3 * vs.length / 4 - vs.length / 2 ∧
    quartileCount vs 4 = vs.length - 1 - 3 * vs.length / 4 := by
  have hn : 0 < vs.length := List.length_pos.2 hne
  refine ⟨?_, ?_, ?_, ?_⟩ <;> rw [quartileCount_eq_range_count vs hnd]
  · have hc : (List.range vs.length).countP (fun i => decide (bucketOfIdx i vs.length = 1)) =
        (List.range vs.length).countP
          (fun i => decide (0 ≤ i ∧ i < vs.length / 4 + 1)) :=
      List.countP_congr (fun i _ => by
        simp only [decide_eq_true_eq]
        unfold bucketOfIdx
        split_ifs <;> omega)
    rw [hc, countP_range_interval]
    omega
  · have hc : (List.range vs.length).countP (fun i => decide (bucketOfIdx i vs.length = 2)) =
        (List.range vs.length).countP
          (fun i => decide (vs.length / 4 + 1 ≤ i ∧ i < vs.length / 2 + 1)) :=
      List.countP_congr (fun i _ => by
        simp only [decide_eq_true_eq]
        unfold bucketOfIdx
        split_ifs <;> omega)
    rw [hc, countP_range_interval]
    omega
  · have hc : (List.range vs.length).countP (fun i => decide (bucketOfIdx i vs.length = 3)) =
        (List.range vs.length).countP
          (fun i => decide (vs.length / 2 + 1 ≤ i ∧ i < 3 * vs.length / 4 + 1)) :=
      List.countP_congr (fun i _ => by
        simp only [decide_eq_true_eq]
        unfold bucketOfIdx
        split_ifs <;> omega)
    rw [hc, countP_range_interval]
    omega
  · have hc : (List.range vs.length).countP (fun i => decide (bucketOfIdx i vs.length = 4)) =
        (List.range vs.length).countP
          (fun i => decide (3 * vs.length / 4 + 1 ≤ i ∧ i < vs.length)) :=
      List.countP_congr (fun i hi => by
        have hi2 := List.mem_range.1 hi
        simp only [decide_eq_true_eq]
        unfold bucketOfIdx
        split_ifs <;> omega)
    rw [hc, countP_range_interval]
    omega

/-- C3 (counterexample): the cohort of four pairwise-distinct values
`[100, 110, 130, 160]` gets quartile groups of sizes 2, 1, 1, 0 — group 1 and
group 4 differ by 2, not at most 1. -/
theorem quartile_groups_counterexample :
    ([100, 110, 130, 160] : List Int) ≠ [] ∧
    ([100, 110, 130, 160] : List Int).Nodup ∧
    quartileCount ([100, 110, 130, 160] : List Int) 1 = 2 ∧
    quartileCount ([100, 110, 130, 160] : List Int) 4 = 0 ∧
    ¬ (quartileCount ([100, 110, 130, 160] : List Int) 1 ≤
        quartileCount ([100, 110, 130, 160] : List Int) 4 + 1) := by
  refine ⟨by decide, by decide, ?_, ?_, ?_⟩ <;> with_unfolding_all decide

/-- C3 (amended): for a non-empty cohort with pairwise-distinct metric values,
the quartile group sizes differ pairwise by at most 2 (not 1: when the cohort
size is divisible by 4, group 1 holds one extra value and group 4 one fewer,
as the counterexample with 4 values shows). -/
theorem quartile_groups_within_two {α : Type} [DecidableEq α] [LinearOrder α]
    (vs : List α) (hne : vs ≠ []) (hnd : vs.Nodup) (q r : Int)
    (hq : q ∈ ([1, 2, 3, 4] : List Int)) (hr : r ∈ ([1, 2, 3, 4] : List Int)) :
    quartileCount vs q ≤ quartileCount vs r + 2 := by
  obtain ⟨e1, e2, e3, e4⟩ := quartileCount_formula vs hnd hne
  have hn : 0 < vs.length := List.length_pos.2 hne
  simp only [List.mem_cons, List.not_mem_nil, or_false] at hq hr
  rcases hq with rfl | rfl | rfl | rfl <;> rcases hr with rfl | rfl | rfl | rfl <;>
    simp only [e1, e2, e3, e4] <;> omega

/-- C3 witness: the two-apart bound holds on the concrete distinct cohort
`[100, 110, 130, 160]` for groups 1 and 4. -/
theorem quartile_groups_within_two_witness :
    ([100, 110, 130, 160] : List Int) ≠ [] ∧
    ([100, 110, 130, 160] : List Int).Nodup ∧
    (1 : Int) ∈ ([1, 2, 3, 4] : List Int) ∧
    (4 : Int) ∈ ([1, 2, 3, 4] : List Int) ∧
    quartileCount ([100, 110, 130, 160] : List Int) 1 ≤
      quartileCount ([100, 110, 130, 160] : List Int) 4 + 2 :=
  ⟨by decide, by decide, by decide, by decide,
    quartile_groups_within_two _ (by decide) (by decide) 1 4 (by decide) (by decide)⟩
